import Mathlib

/-!
Shallow embedding of the build pipeline of `src/build.js` (rung-cli).

The pipeline: directory listing → `filterFiles` (validation) → `linkFiles`
(locale and autocomplete linking) → `precompile` (per-locale metadata
aggregation) → `createZip` / `addToZip` (archive construction) →
`resolveOutputTarget` / `saveZip` (output resolution).

External collaborators of `build.js` whose sources are not part of the core
(`./module`'s `inspect` / `ensureNoImports` / `compileModulesFromSource`,
`./vm`'s `getProperties`, the `jszip`, `ramda`, `deepmerge` and `bluebird`
libraries, and the filesystem) are represented by explicit parameters or by
small definitions whose doc comments state which library behaviour they embed.
-/

namespace Rung

/-- A JSON value, as far as the build pipeline observes it after
`JSON.parse`: the pipeline only ever asks whether the value is an `Object`
instance (ramda `is(Object)`) and, for locale files, threads the parsed
string table into the sandbox.  Arrays carry only their length and objects
carry a flat string table, which is all the code inspects. -/
inductive Json where
  | null
  | bool (b : Bool)
  | num (n : Int)
  | str (s : String)
  | arr (len : Nat)
  | obj (strings : List (String × String))
  deriving DecidableEq, Repr

/-- ramda `is(Object)`, i.e. JavaScript `x instanceof Object`, on a value
produced by `JSON.parse`: objects and arrays are `Object` instances, while
`null`, booleans, numbers and strings are primitives and are not. -/
def isObjectInstance : Json → Bool
  | .arr _ => true
  | .obj _ => true
  | _ => false

/-! ### Character classes and the two locale-name regexes -/

/-- A character matched by the regex class `[a-z]`. -/
def isLowerAlpha (c : Char) : Bool := decide ('a' ≤ c) && decide (c ≤ 'z')

/-- A character matched by the regex class `[A-Z]`. -/
def isUpperAlpha (c : Char) : Bool := decide ('A' ≤ c) && decide (c ≤ 'Z')

/-- The literal tail `.json` of both locale-file regexes. -/
def jsonSuffix : List Char := ['.', 'j', 's', 'o', 'n']

/-- The optional group `(_[A-Z]{2,3})?` of the `linkLocales` regex,
followed by the anchored literal `\.json$`: either the remainder is exactly
`.json`, or it is an underscore, two or three characters in `[A-Z]`, and
then `.json`. -/
def matchRegion23 : List Char → Bool
  | u :: r1 :: r2 :: rest =>
    decide (u = '_') && isUpperAlpha r1 && isUpperAlpha r2 &&
      (decide (rest = jsonSuffix) ||
        (match rest with
         | r3 :: rest2 => isUpperAlpha r3 && decide (rest2 = jsonSuffix)
         | [] => false))
  | _ => false

/-- The regex `/^[a-z]{2}(_[A-Z]{2,3})?\.json$/` used by `linkLocales`
(src/build.js line 182): exactly two `[a-z]` characters, then either the
literal `.json` or an underscore, two-or-three `[A-Z]` characters and
`.json`. -/
def matchLinkLocale : List Char → Bool
  | c1 :: c2 :: rest =>
    isLowerAlpha c1 && isLowerAlpha c2 &&
      (decide (rest = jsonSuffix) || matchRegion23 rest)
  | _ => false

/-- The optional group `(_[A-Z]{2})?` of the `precompile` regex, followed by
the anchored `\.json$`. -/
def matchRegion2 : List Char → Bool
  | l =>
    decide (l = jsonSuffix) ||
      (match l with
       | '_' :: r1 :: r2 :: rest =>
         isUpperAlpha r1 && isUpperAlpha r2 && decide (rest = jsonSuffix)
       | _ => false)

/-- The part `[a-z]{2,3}(_[A-Z]{2})?\.json$` of the `precompile` regex:
two or three `[a-z]` characters, then `matchRegion2`. -/
def matchLang23 : List Char → Bool
  | c1 :: c2 :: rest =>
    isLowerAlpha c1 && isLowerAlpha c2 &&
      (matchRegion2 rest ||
        (match rest with
         | c3 :: rest2 => isLowerAlpha c3 && matchRegion2 rest2
         | [] => false))
  | _ => false

/-- The regex `/^locales(\/|\\)[a-z]{2,3}(_[A-Z]{2})?\.json$/` used by
`precompile` (src/build.js line 113) to select locale paths from the linked
file set. -/
def matchPrecompileLocale : List Char → Bool
  | 'l' :: 'o' :: 'c' :: 'a' :: 'l' :: 'e' :: 's' :: sep :: rest =>
    (decide (sep = '/') || decide (sep = '\\')) && matchLang23 rest
  | _ => false

/-! ### ramda list helpers used by the pipeline -/

/-- Worker for ramda `uniq`: keep the first occurrence of each element,
tracking the elements already seen. -/
def uniqAux (seen : List String) : List String → List String
  | [] => []
  | x :: xs =>
    if seen.contains x then uniqAux seen xs
    else x :: uniqAux (x :: seen) xs

/-- ramda `uniq`: the list with duplicates removed, keeping first
occurrences in order. -/
def uniq (l : List String) : List String := uniqAux [] l

/-- ramda `union(a, b) = uniq(concat(a, b))`: the deduplicated
concatenation, first occurrences kept in order. -/
def unionR (a b : List String) : List String := uniq (a ++ b)

/-- ramda `without(xs, ys)`: the members of `ys` that are not members of
`xs`. -/
def without (xs ys : List String) : List String :=
  ys.filter (fun y => !xs.contains y)

/-! ### The validation stage: `filterFiles` -/

/-- The manifest record `{ code, files }` threaded through the pipeline. -/
structure Manifest where
  code : String
  files : List String
  deriving DecidableEq, Repr

/-- `requiredFiles` from src/build.js line 45. -/
def requiredFiles : List String := ["package.json", "index.js"]

/-- `clearModule = replace(/^\.\//, '')`: strip one leading `./`. -/
def clearModule (s : String) : String :=
  if s.startsWith "./" then s.drop 2 else s

/-- `filterFiles` (src/build.js lines 128–147).  `listing` is the project
directory listing handed in by `fs.readdirAsync`; `inspectRes` is the
`{ code, modules }` record returned by the Module Inspector's `inspect` on
the contents of `index.js` (the inspector itself, `src/module.js`, is a
collaborator outside the provided sources, so its output is a parameter).
Missing required files throw `missing <names> from the project`; otherwise
the manifest's initial file set is
`union(modules.filter(startsWith('./')).map(clearModule),
concat(resources, requiredFiles))` with `resources = ['icon.png']` exactly
when the listing contains it.  The icon warning is a log side effect with no
bearing on the result and is not modelled. -/
def filterFiles (listing : List String) (inspectRes : String × List String) :
    Except String Manifest :=
  let missingFiles := without listing requiredFiles
  let hasIcon := listing.contains "icon.png"
  let resources := if hasIcon then ["icon.png"] else []
  if missingFiles.length > 0 then
    .error ("missing " ++ String.intercalate ", " missingFiles ++ " from the project")
  else
    let modules := inspectRes.2.filter (fun m => m.startsWith "./")
    .ok ⟨inspectRes.1, unionR (modules.map clearModule) (resources ++ requiredFiles)⟩

/-! ### The linking stage: `linkLocales`, `linkAutoComplete`, `linkFiles` -/

/-- `linkLocales` (src/build.js lines 179–188).  `listing` is the result of
`listFiles('locales')` (the empty list when the directory is absent);
`readLoc` models `fs.readFileAsync` followed by `JSON.parse` on a path,
`none` meaning the read or the parse failed.  Candidates are the listing
entries matching the regex, joined under `locales/`; a candidate is kept
exactly when its content reads, parses and satisfies ramda `is(Object)` —
the promise-level `catchReturn(false)` turns every failure into exclusion,
never into an error, so the function is total. -/
def linkLocales (listing : List String) (readLoc : String → Option Json) :
    List String :=
  ((listing.filter (fun f => matchLinkLocale f.data)).map
      (fun f => "locales/" ++ f)).filter
    (fun location =>
      match readLoc location with
      | some j => isObjectInstance j
      | none => false)

/-- JavaScript `String.prototype.endsWith` / ramda `endsWith`, stated over
the character lists of the strings. -/
def strEndsWith (s suffix : String) : Bool := suffix.data.isSuffixOf s.data

/-- Modelled from the spec: the Module Inspector collaborator's
`ensureNoImports(filename, content)` — its source, `src/module.js`, is not
among the provided files.  Per §6 of the spec it succeeds when the script
contains no import/dependency statement and otherwise fails with an
`ImportViolationError` naming the offending file.  Whether a given content
string contains an import statement is abstracted as the predicate
`hasImport`. -/
def ensureNoImports (hasImport : String → Bool) (filename content : String) :
    Except String Unit :=
  if hasImport content then
    .error ("import statement found in " ++ filename)
  else .ok ()

/-- `linkAutoComplete` (src/build.js lines 167–172).  `listing` is
`listFiles('autocomplete')`; `readF` models `fs.readFileAsync`.  Entries
ending in `.js` are joined under `autocomplete/`; a `tap` then reads each
kept file and runs `ensureNoImports` on it, and Bluebird's `tap` propagates
the first rejection, so the file list is returned only when every kept
script passes the check. -/
def linkAutoComplete (listing : List String) (readF : String → String)
    (hasImport : String → Bool) : Except String (List String) :=
  let files := (listing.filter (fun f => strEndsWith f ".js")).map
    (fun f => "autocomplete/" ++ f)
  match files.findSome? (fun f =>
      match ensureNoImports hasImport f (readF f) with
      | .error e => some e
      | .ok _ => none) with
  | some e => .error e
  | none => .ok files

/-- The comparator `subtract` passed by `linkFiles` to `sort`
(src/build.js line 202), as JavaScript's `SortCompare` sees it on the file
set's strings: `a - b` coerces both strings to numbers, yielding `NaN` for
every file name in play, and the ECMAScript `SortCompare` treats a `NaN`
comparator result as `+0`, i.e. the pair compares equal. -/
def subtractCompare (a b : String) : Ordering := Ordering.eq

/-- Stable insertion of one element under a comparator: the element goes
after every element it does not compare strictly below, so elements that
compare equal keep their original relative order. -/
def insertStable (cmp : String → String → Ordering) (x : String) :
    List String → List String
  | [] => [x]
  | y :: ys =>
    match cmp x y with
    | .lt => x :: y :: ys
    | _ => y :: insertStable cmp x ys

/-- A stable comparison sort, the behaviour ECMAScript ≥ 2019 guarantees
for `Array.prototype.sort`: elements are inserted left to right, each kept
after the elements equal to it. -/
def jsSort (cmp : String → String → Ordering) (l : List String) :
    List String :=
  l.foldl (fun acc x => insertStable cmp x acc) []

/-- `sort(subtract)` as applied by `linkFiles` to the combined file set. -/
def sortSubtract (l : List String) : List String := jsSort subtractCompare l

/-- `linkFiles` (src/build.js lines 199–203): union the locale and
autocomplete link results, union the manifest's existing files in front of
that (`union(files)` is ramda `union` partially applied to `files` as its
first argument), and sort with the `subtract` comparator. -/
def linkFiles (m : Manifest) (localeListing : List String)
    (readLoc : String → Option Json) (autoListing : List String)
    (readF : String → String) (hasImport : String → Bool) :
    Except String Manifest :=
  match linkAutoComplete autoListing readF hasImport with
  | .error e => .error e
  | .ok autoFiles =>
    .ok ⟨m.code,
      sortSubtract (unionR m.files
        (unionR (linkLocales localeListing readLoc) autoFiles))⟩

/-! ### The precompilation stage: `localesToPairs`, `project`,
`runInAllLocales`, `precompile` -/

/-- `localeByFile = pipe(drop(8), takeWhile(complement(equals('.'))), join(''))`
(src/build.js lines 47–51): drop the 8 characters of the `locales/`
prefix and take the name up to the first dot. -/
def localeByFile (s : String) : String :=
  ⟨(s.data.drop 8).takeWhile (fun c => c ≠ '.')⟩

/-- `localesToPairs` (src/build.js lines 59–63): read and `JSON.parse`
every locale file and pair it with its locale code.  The reads sit inside a
bare `Promise.all` with no handler, so the first read or parse failure
rejects the whole stage — unlike linking, nothing is silently dropped. -/
def localesToPairs (localeFiles : List String)
    (readLoc : String → Option Json) : Except String (List (String × Json)) :=
  match localeFiles with
  | [] => .ok []
  | f :: fs =>
    match readLoc f with
    | none => .error ("failed to read or parse " ++ f)
    | some j =>
      match localesToPairs fs readLoc with
      | .error e => .error e
      | .ok rest => .ok ((localeByFile f, j) :: rest)

/-- One parameter record of the extension's declared `params`, as the
sandbox returns it: a description plus the rest of the object, which the
pipeline never inspects and is kept opaque. -/
structure Param where
  description : String
  rest : String
  deriving DecidableEq, Repr

/-- The `{title, description, preview, params}` record returned by the
Sandbox Runner's `getProperties` for one locale. -/
structure Config where
  title : String
  description : String
  preview : String
  params : List (String × Param)
  deriving DecidableEq, Repr

/-- A parameter after `project`: `merge(param, { description: { [locale]:
param.description } })` keeps every other field and replaces the
description by a locale-keyed table. -/
structure LParam where
  description : List (String × String)
  rest : String
  deriving DecidableEq, Repr

/-- The per-locale metadata projection produced by `project`, and also the
shape of the deep-merged result: each translatable field is a table keyed
by locale code. -/
structure LocaleMeta where
  title : List (String × String)
  description : List (String × String)
  preview : List (String × String)
  params : List (String × LParam)
  deriving DecidableEq, Repr

/-- `project` (src/build.js lines 72–78): wrap each translatable field of
the sandbox's config as `{ [locale]: value }`; `mapObjIndexed` keeps the
param keys and rewrites each param's description the same way. -/
def project (locale : String) (c : Config) : LocaleMeta where
  title := [(locale, c.title)]
  description := [(locale, c.description)]
  preview := [(locale, c.preview)]
  params := c.params.map (fun kp => (kp.1, ⟨[(locale, kp.2.description)], kp.2.rest⟩))

/-- `deepmerge` on two flat string tables: target keys first in their
order, each overwritten by the source value on a key collision, then the
source's new keys in source order — JavaScript object key order under
`deepmerge`'s clone-and-assign. -/
def mergeAssocStr (a b : List (String × String)) : List (String × String) :=
  (a.map (fun kv =>
    (kv.1, match b.lookup kv.1 with | some w => w | none => kv.2)))
    ++ b.filter (fun kv => (a.lookup kv.1).isNone)

/-- `deepmerge` on two projected params: the opaque fields are overwritten
by the source, the locale-keyed descriptions merge recursively. -/
def mergeLParam (a b : LParam) : LParam where
  description := mergeAssocStr a.description b.description
  rest := b.rest

/-- `deepmerge` on two param tables, recursing into params present on both
sides. -/
def mergeParams (a b : List (String × LParam)) : List (String × LParam) :=
  (a.map (fun kv =>
    (kv.1, match b.lookup kv.1 with | some w => mergeLParam kv.2 w | none => kv.2)))
    ++ b.filter (fun kv => (a.lookup kv.1).isNone)

/-- `deepmerge` on two LocaleMeta records: fieldwise recursive merge. -/
def mergeMeta (a b : LocaleMeta) : LocaleMeta where
  title := mergeAssocStr a.title b.title
  description := mergeAssocStr a.description b.description
  preview := mergeAssocStr a.preview b.preview
  params := mergeParams a.params b.params

/-- The empty metadata record, `deepmerge.all`'s initial accumulator `{}`. -/
def emptyMeta : LocaleMeta := ⟨[], [], [], []⟩

/-- `deepmerge.all(array)`: fold the records left to right into `{}`. -/
def deepmergeAll (l : List LocaleMeta) : LocaleMeta :=
  l.foldl mergeMeta emptyMeta

/-- `runInAllLocales` (src/build.js lines 88–93).  `gp locale strings`
models the Sandbox Runner chain `compileModulesFromSource(source)` +
`getProperties({name, source}, strings, modules)` (both collaborators
outside the provided sources), returning the extension's declared config
under one locale's string table.  The execution set is the default case
`('default', {})` prepended to the discovered locale pairs; each result is
projected under its locale, and `ifElse(propEq('length', 1), head,
unary(deepmerge.all))` uses a single execution's projection as-is and
deep-merges otherwise. -/
def runInAllLocales (gp : String → Json → Config)
    (locales : List (String × Json)) : LocaleMeta :=
  let metas := (("default", Json.obj []) :: locales).map
    (fun ls => project ls.1 (gp ls.1 ls.2))
  match metas with
  | [m] => m
  | ms => deepmergeAll ms

/-- `precompile` (src/build.js lines 111–118): filter the manifest's file
set by the precompile locale-path regex, read the selected files into
pairs, run the extension in every locale, write the merged metadata to
`.meta` (modelled by returning it) and return `['.meta', ...files]`. -/
def precompile (m : Manifest) (readLoc : String → Option Json)
    (gp : String → Json → Config) :
    Except String (List String × LocaleMeta) :=
  let localeFiles := m.files.filter (fun f => matchPrecompileLocale f.data)
  match localesToPairs localeFiles readLoc with
  | .error e => .error e
  | .ok pairs => .ok (".meta" :: m.files, runInAllLocales gp pairs)

/-! ### The archive builder: `addToZip`, `createZip` -/

/-- A filesystem node as `lstat` classifies it: a regular file with its
content, a directory with its ordered `readdir` entries, or any other type
(symlink, device, …). -/
inductive FsNode where
  | file (content : String)
  | dir (entries : List (String × FsNode))
  | other
  deriving Repr

/-- The literal archive timestamp `new Date(1149562800000)` of
`defaultFileOptions` (src/build.js line 44), in epoch milliseconds. -/
def fixedTimestamp : Nat := 1149562800000

/-- One entry of the archive being built: its path inside the archive,
whether it is a folder entry, its content, and the timestamp JSZip records
for it, in epoch milliseconds. -/
structure ZipEntry where
  path : String
  isDir : Bool
  content : String
  date : Nat
  deriving DecidableEq, Repr

mutual

/-- `addToZip` (src/build.js lines 275–289) on the node found at
`dir/filename`, where `pre` is the path of the `zip`/`zip.folder` object
entries are being added to and `now` is the wall clock at build time.  A
regular file is added with `defaultFileOptions`, so with the fixed
timestamp; a directory becomes a `zip.folder(filename)` — JSZip's `folder`
adds the entry with no `date` option, and JSZip then defaults a missing
`date` to `new Date()`, the current time — followed by a recursive
`addToZip` for each `readdir` entry; any other node type throws
`Invalid file type for <path>`. -/
def addToZip (now : Nat) (pre filename : String) :
    FsNode → Except String (List ZipEntry)
  | .file content => .ok [⟨pre ++ filename, false, content, fixedTimestamp⟩]
  | .dir entries =>
    match addZipEntries now (pre ++ filename ++ "/") entries with
    | .error e => .error e
    | .ok es => .ok (⟨pre ++ filename ++ "/", true, "", now⟩ :: es)
  | .other => .error ("Invalid file type for " ++ pre ++ filename)

/-- The `map (file => addToZip (zip.folder filename) filePath file)` over a
directory's `readdir` listing, in order. -/
def addZipEntries (now : Nat) (pre : String) :
    List (String × FsNode) → Except String (List ZipEntry)
  | [] => .ok []
  | nd :: rest =>
    match addToZip now pre nd.1 nd.2 with
    | .error e => .error e
    | .ok es =>
      match addZipEntries now pre rest with
      | .error e => .error e
      | .ok es2 => .ok (es ++ es2)

end

/-- Worker for `splitSlash`, accumulating the current path segment in
reverse. -/
def splitSlashAux (cur : List Char) : List Char → List String
  | [] => [⟨cur.reverse⟩]
  | c :: cs =>
    if c = '/' then ⟨cur.reverse⟩ :: splitSlashAux [] cs
    else splitSlashAux (c :: cur) cs

/-- Split a relative path into its slash-separated segments. -/
def splitSlash (s : String) : List String := splitSlashAux [] s.data

/-- Look a slash-separated relative path up in a directory tree, as the
`fs.lstatSync(path.join(dir, filename))` of `addToZip` does for file-set
members such as `locales/en.json`. -/
def lookupPath : FsNode → List String → Option FsNode
  | node, [] => some node
  | .dir entries, seg :: segs =>
    match entries.lookup seg with
    | some child => lookupPath child segs
    | none => none
  | _, _ :: _ => none

/-- `createZip` (src/build.js lines 225–229): fold the file set over
`addToZip` against the project directory `root`.  A file-set member whose
path does not exist makes `lstatSync` throw. -/
def createZip (now : Nat) (root : FsNode) :
    List String → Except String (List ZipEntry)
  | [] => .ok []
  | f :: fs =>
    match lookupPath root (splitSlash f) with
    | none => .error ("no such file or directory, lstat " ++ f)
    | some node =>
      match addToZip now "" f node with
      | .error e => .error e
      | .ok es =>
        match createZip now root fs with
        | .error e => .error e
        | .ok es2 => .ok (es ++ es2)

/-! ### The output resolver: `resolveOutputTarget` -/

/-- What `lstat` reports for a path: a regular file, a directory, some
other node type, or (`none`) that the path does not exist, in which case
`lstatSync` throws. -/
inductive FileKind where
  | file
  | dir
  | other
  deriving DecidableEq, Repr

/-- The value `resolveOutputTarget` hands to `saveZip` as the write target:
either a path string, or — when `lstatSync` throws — the thrown `Error`
object itself, because ramda's `tryCatch` invokes the catcher with the
error as its first argument and the catcher here is `identity`. -/
inductive OutTarget where
  | path (p : String)
  | errorObject (message : String)
  deriving DecidableEq, Repr

/-- `path.join` of an absolute directory and a file name. -/
def pathJoin (dir filename : String) : String := dir ++ "/" ++ filename

/-- `resolveOutputTarget` (src/build.js lines 239–248).  `res` models
`path.resolve('.', ·)` against the current working directory; `stat` models
`fs.lstatSync`, with `none` meaning the path does not exist and the call
throws.  When the resolved path is an existing directory the target is that
directory joined with the file name; when it exists as anything else the
target is the resolved path itself; when it does not exist, `tryCatch`'s
catcher `identity` receives the thrown `Error` first and returns it, so the
function's value is the `Error` object, not a path. -/
def resolveOutputTarget (res : String → String)
    (stat : String → Option FileKind) (customPath filename : String) :
    OutTarget :=
  let realPath := res customPath
  match stat realPath with
  | some .dir => .path (pathJoin realPath filename)
  | some _ => .path realPath
  | none =>
    .errorObject ("ENOENT: no such file or directory, lstat " ++ realPath)

/-! ### Declarative locale-name patterns, for comparison with the regexes -/

/-- The linking locale-file name pattern as the spec words it: a
two-OR-three-letter language code, optionally followed by an underscore and
a two-or-three-letter region code, with a `.json` extension (lower-case
language and upper-case region letters, the conventional casing the code's
character classes use). -/
def SpecLocaleName (l : List Char) : Prop :=
  ∃ lang region : List Char,
    (lang.length = 2 ∨ lang.length = 3) ∧
    (∀ c ∈ lang, isLowerAlpha c = true) ∧
    ((l = lang ++ jsonSuffix ∧ region = []) ∨
      (l = lang ++ '_' :: (region ++ jsonSuffix) ∧
        (region.length = 2 ∨ region.length = 3) ∧
        ∀ c ∈ region, isUpperAlpha c = true))

/-- The locale-file name pattern the linking regex actually implements: an
exactly-two-letter language code, optionally followed by an underscore and
a two-or-three-letter region code, with a `.json` extension. -/
def LinkLocaleName (l : List Char) : Prop :=
  ∃ (c1 c2 : Char) (region : List Char),
    isLowerAlpha c1 = true ∧ isLowerAlpha c2 = true ∧
    ((l = c1 :: c2 :: jsonSuffix ∧ region = []) ∨
      (l = c1 :: c2 :: '_' :: (region ++ jsonSuffix) ∧
        (region.length = 2 ∨ region.length = 3) ∧
        ∀ c ∈ region, isUpperAlpha c = true))

/-! ## Helper lemmas -/

theorem mem_uniqAux {a : String} :
    ∀ {l seen : List String}, a ∈ uniqAux seen l ↔ a ∈ l ∧ a ∉ seen := by
  intro l
  induction l with
  | nil => intro seen; simp [uniqAux]
  | cons x xs ih =>
    intro seen
    by_cases hx : seen.contains x
    · have hxs : x ∈ seen := List.elem_iff.mp hx
      rw [uniqAux, if_pos hx]
      simp only [ih, List.mem_cons]
      constructor
      · rintro ⟨h1, h2⟩
        exact ⟨Or.inr h1, h2⟩
      · rintro ⟨h1 | h1, h2⟩
        · exact absurd (h1 ▸ hxs) h2
        · exact ⟨h1, h2⟩
    · have hxs : x ∉ seen := fun hmem => hx (List.elem_iff.mpr hmem)
      rw [uniqAux, if_neg hx]
      simp only [List.mem_cons, ih]
      constructor
      · rintro (rfl | ⟨h1, h2⟩)
        · exact ⟨Or.inl rfl, hxs⟩
        · exact ⟨Or.inr h1, fun hs => h2 (Or.inr hs)⟩
      · rintro ⟨rfl | h1, h2⟩
        · exact Or.inl rfl
        · by_cases hax : a = x
          · exact Or.inl hax
          · exact Or.inr ⟨h1, by simp [List.mem_cons, hax, h2]⟩

theorem mem_uniq {a : String} {l : List String} : a ∈ uniq l ↔ a ∈ l := by
  simp [uniq, mem_uniqAux]

theorem mem_unionR {a : String} {x y : List String} :
    a ∈ unionR x y ↔ a ∈ x ∨ a ∈ y := by
  simp [unionR, mem_uniq]

theorem insertStable_subtractCompare (x : String) :
    ∀ l : List String, insertStable subtractCompare x l = l ++ [x] := by
  intro l
  induction l with
  | nil => rfl
  | cons y ys ih => simp [insertStable, subtractCompare, ih]

theorem sortSubtract_eq_id (l : List String) : sortSubtract l = l := by
  suffices h : ∀ acc : List String,
      l.foldl (fun acc x => insertStable subtractCompare x acc) acc = acc ++ l by
    simpa using h []
  induction l with
  | nil => intro acc; simp
  | cons x xs ih =>
    intro acc
    rw [List.foldl_cons, insertStable_subtractCompare, ih]
    simp

/-! ## Claim theorems -/

/-- C1 (code bug): the first half of the claim holds — a destination that
resolves to an existing directory yields that directory joined with
`<project-name>.rung` — but for a destination that names no existing path
the code does not return the resolved destination itself: ramda `tryCatch`
hands the thrown `ENOENT` error to the `identity` catcher as its first
argument, so `resolveOutputTarget` returns the `Error` object instead of
the path.  Evaluated here at the spec's own example inputs: the existing
directory `./dist` and the non-existent `./out/widget.rung`, with only
`./dist` existing. -/
theorem resolveOutputTarget_enoent_returns_error :
    resolveOutputTarget id
        (fun p => if p = "./dist" then some .dir else none) "./dist"
        "widget.rung" = .path "./dist/widget.rung" ∧
    resolveOutputTarget id
        (fun p => if p = "./dist" then some .dir else none)
        "./out/widget.rung" "widget.rung" =
      .errorObject
        "ENOENT: no such file or directory, lstat ./out/widget.rung" := by
  constructor <;> rfl

/-- C3: whenever at least one of the mandatory files `package.json` and
`index.js` is absent from the project listing, `filterFiles` fails with an
error whose message names every missing mandatory file. -/
theorem filterFiles_names_all_missing (listing : List String)
    (ins : String × List String)
    (h : ∃ r ∈ requiredFiles, r ∉ listing) :
    ∃ e, filterFiles listing ins = .error e ∧
      ∀ r ∈ requiredFiles, r ∉ listing → ∃ s t, e = s ++ r ++ t := by
  by_cases hp : "package.json" ∈ listing <;> by_cases hi : "index.js" ∈ listing
  · rcases h with ⟨r, hr, hnot⟩
    simp only [requiredFiles, List.mem_cons, List.mem_singleton,
      List.not_mem_nil] at hr
    rcases hr with rfl | rfl | hr
    · exact absurd hp hnot
    · exact absurd hi hnot
    · exact hr.elim
  · have hp' : listing.contains "package.json" = true := by
      simp [List.contains, List.elem_iff, hp]
    have hi' : listing.contains "index.js" = false := by
      simp [List.contains, List.elem_iff, hi]
    refine ⟨"missing index.js from the project", ?_, ?_⟩
    · simp [filterFiles, without, requiredFiles, hp, hi]
      rfl
    · intro r hr hnot
      simp only [requiredFiles, List.mem_cons, List.mem_singleton,
        List.not_mem_nil] at hr
      rcases hr with rfl | rfl | hr
      · exact absurd hp hnot
      · exact ⟨"missing ", " from the project", by decide⟩
      · exact hr.elim
  · have hp' : listing.contains "package.json" = false := by
      simp [List.contains, List.elem_iff, hp]
    have hi' : listing.contains "index.js" = true := by
      simp [List.contains, List.elem_iff, hi]
    refine ⟨"missing package.json from the project", ?_, ?_⟩
    · simp [filterFiles, without, requiredFiles, hp, hi]
      rfl
    · intro r hr hnot
      simp only [requiredFiles, List.mem_cons, List.mem_singleton,
        List.not_mem_nil] at hr
      rcases hr with rfl | rfl | hr
      · exact ⟨"missing ", " from the project", by decide⟩
      · exact absurd hi hnot
      · exact hr.elim
  · have hp' : listing.contains "package.json" = false := by
      simp [List.contains, List.elem_iff, hp]
    have hi' : listing.contains "index.js" = false := by
      simp [List.contains, List.elem_iff, hi]
    refine ⟨"missing package.json, index.js from the project", ?_, ?_⟩
    · simp [filterFiles, without, requiredFiles, hp, hi]
      rfl
    · intro r hr hnot
      simp only [requiredFiles, List.mem_cons, List.mem_singleton,
        List.not_mem_nil] at hr
      rcases hr with rfl | rfl | hr
      · exact ⟨"missing ", ", index.js from the project", by decide⟩
      · exact ⟨"missing package.json, ", " from the project", by decide⟩
      · exact hr.elim

/-- Witness for `filterFiles_names_all_missing` at a listing missing
`package.json`. -/
theorem filterFiles_names_all_missing_witness :
    ∃ e, filterFiles ["index.js"] ("", []) = .error e ∧
      ∀ r ∈ requiredFiles, r ∉ (["index.js"] : List String) →
        ∃ s t, e = s ++ r ++ t :=
  filterFiles_names_all_missing ["index.js"] ("", [])
    ⟨"package.json", by decide, by decide⟩

/-- C4: the locale execution set is the default case prepended to the
discovered locales.  Consequently, whatever configs the sandbox returns,
for discovered locales `en` and `pt_BR` the merged metadata's `title`
table has exactly the keys `default`, `en`, `pt_BR` in that order, and
with no discovered locales the single default execution's projection is
used as-is, without merging. -/
theorem runInAllLocales_locale_keys (gp : String → Json → Config)
    (jEn jBr : Json) :
    (runInAllLocales gp [("en", jEn), ("pt_BR", jBr)]).title.map Prod.fst
        = ["default", "en", "pt_BR"] ∧
    runInAllLocales gp [] = project "default" (gp "default" (Json.obj [])) := by
  constructor
  · simp [runInAllLocales, deepmergeAll, emptyMeta, mergeMeta, mergeAssocStr,
      project, List.lookup]
  · rfl

theorem matchRegion23_iff (l : List Char) :
    matchRegion23 l = true ↔
      ∃ region : List Char, l = '_' :: (region ++ jsonSuffix) ∧
        (region.length = 2 ∨ region.length = 3) ∧
        ∀ c ∈ region, isUpperAlpha c = true := by
  constructor
  · intro h
    match l with
    | [] => simp [matchRegion23] at h
    | [u] => simp [matchRegion23] at h
    | [u, r1] => simp [matchRegion23] at h
    | u :: r1 :: r2 :: rest =>
      simp only [matchRegion23, Bool.and_eq_true, Bool.or_eq_true,
        decide_eq_true_eq] at h
      obtain ⟨⟨⟨hu, h1⟩, h2⟩, h3⟩ := h
      subst hu
      rcases h3 with h3 | h3
      · subst h3
        refine ⟨[r1, r2], rfl, Or.inl rfl, ?_⟩
        intro c hc
        rcases List.mem_cons.mp hc with rfl | hc
        · exact h1
        · rcases List.mem_singleton.mp hc with rfl
          exact h2
      · rcases rest with _ | ⟨r3, rest2⟩
        · simp at h3
        · simp only [Bool.and_eq_true, decide_eq_true_eq] at h3
          obtain ⟨h4, h5⟩ := h3
          subst h5
          refine ⟨[r1, r2, r3], rfl, Or.inr rfl, ?_⟩
          intro c hc
          rcases List.mem_cons.mp hc with rfl | hc
          · exact h1
          rcases List.mem_cons.mp hc with rfl | hc
          · exact h2
          rcases List.mem_singleton.mp hc with rfl
          exact h4
  · rintro ⟨region, rfl, hlen, hup⟩
    rcases hlen with h2 | h3
    · obtain ⟨a, b, rfl⟩ := List.length_eq_two.mp h2
      simp [matchRegion23, hup a (by simp), hup b (by simp)]
    · obtain ⟨a, b, c, rfl⟩ := List.length_eq_three.mp h3
      simp [matchRegion23, hup a (by simp), hup b (by simp), hup c (by simp),
        jsonSuffix]

/-- C5 (amended): a `locales/` entry name is kept as a locale-file
candidate by the linking regex exactly when it is an exactly-TWO-letter
lower-case language code, optionally followed by an underscore and a
two-or-three-letter upper-case region code, with a `.json` extension — the
regex `[a-z]{2}` does not admit the three-letter language codes the
original claim describes. -/
theorem matchLinkLocale_iff (l : List Char) :
    matchLinkLocale l = true ↔ LinkLocaleName l := by
  constructor
  · intro h
    match l with
    | [] => simp [matchLinkLocale] at h
    | [c1] => simp [matchLinkLocale] at h
    | c1 :: c2 :: rest =>
      simp only [matchLinkLocale, Bool.and_eq_true, Bool.or_eq_true,
        decide_eq_true_eq] at h
      obtain ⟨⟨h1, h2⟩, h3⟩ := h
      rcases h3 with h3 | h3
      · exact ⟨c1, c2, [], h1, h2, Or.inl ⟨by rw [h3], rfl⟩⟩
      · obtain ⟨region, hrest, hlen, hup⟩ := (matchRegion23_iff rest).mp h3
        exact ⟨c1, c2, region, h1, h2, Or.inr ⟨by rw [hrest], hlen, hup⟩⟩
  · rintro ⟨c1, c2, region, h1, h2, h3 | h3⟩
    · obtain ⟨rfl, -⟩ := h3
      simp [matchLinkLocale, h1, h2]
    · obtain ⟨rfl, hlen, hup⟩ := h3
      have hr : matchRegion23 ('_' :: (region ++ jsonSuffix)) = true :=
        (matchRegion23_iff _).mpr ⟨region, rfl, hlen, hup⟩
      simp [matchLinkLocale, h1, h2, hr]

/-- Counterexample to C5 as stated: `por.json` carries a three-letter
language code, so it matches the claimed pattern, yet the linking regex
`/^[a-z]{2}(_[A-Z]{2,3})?\.json$/` rejects it. -/
theorem linkLocales_regex_counterexample :
    SpecLocaleName "por.json".data ∧
      matchLinkLocale "por.json".data = false := by
  constructor
  · exact ⟨['p', 'o', 'r'], [],
      Or.inr (by decide), by decide, Or.inl ⟨by decide, rfl⟩⟩
  · decide

theorem matchOption_isObject_iff (o : Option Json) :
    (match o with
      | some j => isObjectInstance j
      | none => false) = true ↔
      ∃ j, o = some j ∧ isObjectInstance j = true := by
  rcases o with _ | j <;> simp

theorem localesToPairs_error_iff (files : List String)
    (readLoc : String → Option Json) :
    (∃ e, localesToPairs files readLoc = .error e) ↔
      ∃ f ∈ files, readLoc f = none := by
  induction files with
  | nil => simp [localesToPairs]
  | cons f fs ih =>
    rcases hf : readLoc f with _ | j
    · constructor
      · intro _
        exact ⟨f, List.mem_cons_self f fs, hf⟩
      · intro _
        exact ⟨"failed to read or parse " ++ f, by simp [localesToPairs, hf]⟩
    · rcases hrec : localesToPairs fs readLoc with e | rest
      · constructor
        · intro _
          obtain ⟨g, hg, hgn⟩ := ih.mp ⟨e, hrec⟩
          exact ⟨g, List.mem_cons_of_mem _ hg, hgn⟩
        · intro _
          exact ⟨e, by simp [localesToPairs, hf, hrec]⟩
      · constructor
        · rintro ⟨e', he'⟩
          simp [localesToPairs, hf, hrec] at he'
        · rintro ⟨g, hg, hgn⟩
          rcases List.mem_cons.mp hg with rfl | hg
          · rw [hf] at hgn
            cases hgn
          · obtain ⟨e', he'⟩ := ih.mpr ⟨g, hg, hgn⟩
            rw [hrec] at he'
            cases he'

/-- C6: during linking, a locale-file candidate is a member of the linked
set exactly when its content reads, parses, and is an `Object` instance —
a read failure, parse failure or non-object value excludes it silently,
and `linkLocales` cannot fail; during precompilation, by contrast,
`localesToPairs` fails exactly when some selected locale file fails to
read or parse. -/
theorem linking_tolerant_precompile_strict (listing : List String)
    (readLoc : String → Option Json) (files : List String) :
    (∀ loc, loc ∈ linkLocales listing readLoc ↔
      ∃ f ∈ listing, matchLinkLocale f.data = true ∧ loc = "locales/" ++ f ∧
        ∃ j, readLoc loc = some j ∧ isObjectInstance j = true) ∧
    ((∃ e, localesToPairs files readLoc = .error e) ↔
      ∃ f ∈ files, readLoc f = none) := by
  constructor
  · intro loc
    simp only [linkLocales, List.mem_filter, List.mem_map]
    constructor
    · rintro ⟨⟨f, ⟨hfl, hfm⟩, rfl⟩, hobj⟩
      exact ⟨f, hfl, hfm, rfl, (matchOption_isObject_iff _).mp hobj⟩
    · rintro ⟨f, hfl, hfm, rfl, hobj⟩
      exact ⟨⟨f, ⟨hfl, hfm⟩, rfl⟩, (matchOption_isObject_iff _).mpr hobj⟩
  · exact localesToPairs_error_iff files readLoc

/-- C7: the linking stage is deterministic — two runs on the same input
produce the same result — and the `sort(subtract)` step, whose comparator
yields `NaN` on strings and is therefore treated as "equal" by
`SortCompare`, leaves the deduplicated union exactly in its union order,
so the final file set is the stable, input-determined list
`union(files, union(locales, autocomplete))`. -/
theorem linkFiles_deterministic (m : Manifest) (ll : List String)
    (rl : String → Option Json) (al : List String) (rf : String → String)
    (imp : String → Bool) :
    linkFiles m ll rl al rf imp = linkFiles m ll rl al rf imp ∧
    ∀ m', linkFiles m ll rl al rf imp = .ok m' →
      ∃ autoFiles, linkAutoComplete al rf imp = .ok autoFiles ∧
        m'.files = unionR m.files (unionR (linkLocales ll rl) autoFiles) := by
  refine ⟨rfl, ?_⟩
  intro m' h
  rcases ha : linkAutoComplete al rf imp with e | autoFiles
  · rw [linkFiles, ha] at h
    cases h
  · rw [linkFiles, ha] at h
    injection h with h'
    subst h'
    exact ⟨autoFiles, rfl, sortSubtract_eq_id _⟩

/-- Witness for `linkFiles_deterministic` on a concrete manifest with no
locale and no autocomplete resources. -/
theorem linkFiles_deterministic_witness :
    linkFiles ⟨"c", ["package.json", "index.js"]⟩ [] (fun _ => none) []
        (fun _ => "") (fun _ => false) =
      linkFiles ⟨"c", ["package.json", "index.js"]⟩ [] (fun _ => none) []
        (fun _ => "") (fun _ => false) ∧
    ∀ m', linkFiles ⟨"c", ["package.json", "index.js"]⟩ [] (fun _ => none) []
        (fun _ => "") (fun _ => false) = .ok m' →
      ∃ autoFiles, linkAutoComplete [] (fun _ => "") (fun _ => false) =
          .ok autoFiles ∧
        m'.files = unionR ["package.json", "index.js"]
          (unionR (linkLocales [] (fun _ => none)) autoFiles) :=
  linkFiles_deterministic ⟨"c", ["package.json", "index.js"]⟩ []
    (fun _ => none) [] (fun _ => "") (fun _ => false)

/-- C8: the autocomplete link stage fails exactly when some listing entry
ending in `.js` has content with an import/dependency statement, the error
message names that offending file, and on success the linked list is
exactly the `.js` entries joined under `autocomplete/` — entries not
ending in `.js` are never checked and never linked.  The import check
itself (`ensureNoImports`) is modelled from the spec, its source being
outside the provided files. -/
theorem linkAutoComplete_import_check (listing : List String)
    (readF : String → String) (hasImport : String → Bool) :
    ((∃ e, linkAutoComplete listing readF hasImport = .error e) ↔
      ∃ f ∈ listing, strEndsWith f ".js" = true ∧
        hasImport (readF ("autocomplete/" ++ f)) = true) ∧
    (∀ e, linkAutoComplete listing readF hasImport = .error e →
      ∃ f ∈ listing, strEndsWith f ".js" = true ∧
        hasImport (readF ("autocomplete/" ++ f)) = true ∧
        e = "import statement found in " ++ ("autocomplete/" ++ f)) ∧
    (∀ fl, linkAutoComplete listing readF hasImport = .ok fl →
      fl = (listing.filter (fun f => strEndsWith f ".js")).map
        (fun f => "autocomplete/" ++ f)) := by
  have hg : ∀ f e, (match ensureNoImports hasImport f (readF f) with
      | .error e => some e
      | .ok _ => none) = some e ↔
      hasImport (readF f) = true ∧
        e = "import statement found in " ++ f := by
    intro f e
    by_cases h : hasImport (readF f) = true
    · simp [ensureNoImports, h, eq_comm]
    · simp [ensureNoImports, h]
  rcases hfs : ((listing.filter (fun f => strEndsWith f ".js")).map
      (fun f => "autocomplete/" ++ f)).findSome? (fun f =>
        match ensureNoImports hasImport f (readF f) with
        | .error e => some e
        | .ok _ => none) with _ | e0
  · have hla : linkAutoComplete listing readF hasImport =
        .ok ((listing.filter (fun f => strEndsWith f ".js")).map
          (fun f => "autocomplete/" ++ f)) := by
      simp only [linkAutoComplete, hfs]
    have hnone := List.findSome?_eq_none_iff.mp hfs
    refine ⟨?_, ?_, ?_⟩
    · constructor
      · rintro ⟨e, he⟩
        rw [hla] at he
        cases he
      · rintro ⟨f, hf, hjs, himp⟩
        have hmem : ("autocomplete/" ++ f) ∈
            (listing.filter (fun f => strEndsWith f ".js")).map
              (fun f => "autocomplete/" ++ f) :=
          List.mem_map.mpr ⟨f, List.mem_filter.mpr ⟨hf, hjs⟩, rfl⟩
        have := hnone _ hmem
        rw [ensureNoImports, if_pos himp] at this
        cases this
    · intro e he
      rw [hla] at he
      cases he
    · intro fl hfl
      rw [hla] at hfl
      injection hfl with h'
      exact h'.symm
  · have hla : linkAutoComplete listing readF hasImport = .error e0 := by
      simp only [linkAutoComplete, hfs]
    obtain ⟨a, ha, hae⟩ := List.exists_of_findSome?_eq_some hfs
    obtain ⟨f, hf, rfl⟩ := List.mem_map.mp ha
    obtain ⟨hfl, hjs⟩ := List.mem_filter.mp hf
    obtain ⟨himp, he0⟩ := (hg _ _).mp hae
    refine ⟨?_, ?_, ?_⟩
    · exact ⟨fun _ => ⟨f, hfl, hjs, himp⟩, fun _ => ⟨e0, hla⟩⟩
    · intro e he
      rw [hla] at he
      injection he with h'
      subst h'
      exact ⟨f, hfl, hjs, himp, he0⟩
    · intro fl hfl'
      rw [hla] at hfl'
      cases hfl'

/-- Witness for `linkAutoComplete_import_check` on a listing with one
`.js` script whose content carries an import statement. -/
theorem linkAutoComplete_import_check_witness :
    ((∃ e, linkAutoComplete ["a.js"] (fun _ => "x") (fun _ => true) =
        .error e) ↔
      ∃ f ∈ (["a.js"] : List String), strEndsWith f ".js" = true ∧
        (fun _ => true) ((fun _ => "x") ("autocomplete/" ++ f)) = true) ∧
    (∀ e, linkAutoComplete ["a.js"] (fun _ => "x") (fun _ => true) =
        .error e →
      ∃ f ∈ (["a.js"] : List String), strEndsWith f ".js" = true ∧
        (fun _ => true) ((fun _ => "x") ("autocomplete/" ++ f)) = true ∧
        e = "import statement found in " ++ ("autocomplete/" ++ f)) ∧
    (∀ fl, linkAutoComplete ["a.js"] (fun _ => "x") (fun _ => true) =
        .ok fl →
      fl = ((["a.js"] : List String).filter
          (fun f => strEndsWith f ".js")).map
        (fun f => "autocomplete/" ++ f)) :=
  linkAutoComplete_import_check ["a.js"] (fun _ => "x") (fun _ => true)

/-- C9: the linking and precompilation stages use different locale-name
patterns, and `en_BRA.json` separates them: linking accepts it (two-letter
language, three-letter region), precompilation's path pattern rejects it
(region limited to two letters), so the file is linked into the archived
file set while its strings are never executed — the generated metadata of
the resulting build carries only the `default` locale key. -/
theorem linked_locale_not_precompiled :
    matchLinkLocale "en_BRA.json".data = true ∧
    matchPrecompileLocale "locales/en_BRA.json".data = false ∧
    linkLocales ["en_BRA.json"] (fun _ => some (Json.obj [])) =
      ["locales/en_BRA.json"] ∧
    precompile ⟨"c", ["index.js", "locales/en_BRA.json"]⟩
        (fun _ => some (Json.obj []))
        (fun _ _ => (⟨"t", "d", "p", []⟩ : Config)) =
      .ok ([".meta", "index.js", "locales/en_BRA.json"],
        project "default" (⟨"t", "d", "p", []⟩ : Config)) ∧
    (project "default" (⟨"t", "d", "p", []⟩ : Config)).title.map Prod.fst =
      ["default"] := by
  refine ⟨by decide, by decide, by decide, ?_, by decide⟩
  rfl

theorem addZip_dates_all (now : Nat) :
    ∀ (pre name : String) (node : FsNode),
      ∀ es, addToZip now pre name node = .ok es →
        ∀ e ∈ es, e.date = if e.isDir then now else fixedTimestamp := by
  refine addToZip.induct now
    (fun pre name node => ∀ es, addToZip now pre name node = .ok es →
      ∀ e ∈ es, e.date = if e.isDir then now else fixedTimestamp)
    (fun pre l => ∀ es, addZipEntries now pre l = .ok es →
      ∀ e ∈ es, e.date = if e.isDir then now else fixedTimestamp)
    ?_ ?_ ?_ ?_ ?_ ?_ ?_ ?_
  · intro pre name content es h e he
    simp only [addToZip, Except.ok.injEq] at h
    subst h
    rcases List.mem_singleton.mp he
    simp
  · intro pre name entries e herr _ es h
    rw [addToZip, herr] at h
    cases h
  · intro pre name entries es0 hok ih es h e he
    rw [addToZip, hok] at h
    injection h with h'
    subst h'
    rcases List.mem_cons.mp he with rfl | he
    · simp
    · exact ih es0 hok e he
  · intro pre name es h
    rw [addToZip] at h
    cases h
  · intro pre es h
    simp only [addZipEntries, Except.ok.injEq] at h
    subst h
    intro e he
    cases he
  · intro pre nd rest e herr _ es h
    rw [addZipEntries, herr] at h
    cases h
  · intro pre nd rest es1 hok e herr _ _ es h
    rw [addZipEntries, hok, herr] at h
    cases h
  · intro pre nd rest es1 hok es2 hok2 ih1 ih2 es h e he
    rw [addZipEntries, hok, hok2] at h
    injection h with h'
    subst h'
    rcases List.mem_append.mp he with he | he
    · exact ih1 es1 hok e he
    · exact ih2 es2 hok2 e he

/-- C2 (amended): in every successful archive build, every REGULAR-FILE
entry — at any depth — carries the fixed literal timestamp
`1149562800000`, independent of the build-time clock and of any source
file attribute; but every DIRECTORY entry carries the build-time clock
`now`, because `zip.folder(filename)` passes no `date` option and JSZip
defaults it to the current time.  The original claim's "every entry" is
false for archives that recurse into a subdirectory. -/
theorem createZip_entry_dates (now : Nat) (root : FsNode)
    (files : List String) (es : List ZipEntry)
    (h : createZip now root files = .ok es) :
    ∀ e ∈ es, e.date = if e.isDir then now else fixedTimestamp := by
  induction files generalizing es with
  | nil =>
    simp only [createZip, Except.ok.injEq] at h
    subst h
    intro e he
    cases he
  | cons f fs ih =>
    rw [createZip] at h
    rcases hl : lookupPath root (splitSlash f) with _ | node
    · simp only [hl] at h
      exact Except.noConfusion h
    · simp only [hl] at h
      rcases ha : addToZip now "" f node with e1 | es1
      · simp only [ha] at h
        exact Except.noConfusion h
      · simp only [ha] at h
        rcases hc : createZip now root fs with e2 | es2
        · simp only [hc] at h
          exact Except.noConfusion h
        · simp only [hc] at h
          injection h with h'
          subst h'
          intro e he
          rcases List.mem_append.mp he with he | he
          · exact addZip_dates_all now "" f node es1 ha e he
          · exact ih es2 hc e he

/-- Witness for `createZip_entry_dates`: in a build at clock `5` of a
project with a top-level file and a subdirectory holding one file, the
directory entry `sub/` is dated with the clock. -/
theorem createZip_entry_dates_witness :
    (ZipEntry.mk "sub/" true "" 5).date =
      if (ZipEntry.mk "sub/" true "" 5).isDir then 5 else fixedTimestamp :=
  createZip_entry_dates 5
    (FsNode.dir [("index.js", FsNode.file "x"),
      ("sub", FsNode.dir [("a.txt", FsNode.file "y")])])
    ["index.js", "sub"]
    [ZipEntry.mk "index.js" false "x" fixedTimestamp,
      ZipEntry.mk "sub/" true "" 5,
      ZipEntry.mk "sub/a.txt" false "y" fixedTimestamp]
    (by
      simp [createZip, addToZip, addZipEntries, lookupPath, List.lookup,
        show splitSlash "index.js" = ["index.js"] from by decide,
        show splitSlash "sub" = ["sub"] from by decide])
    (ZipEntry.mk "sub/" true "" 5) (by simp)

/-- Counterexample to C2 as stated: archiving a file set that contains a
subdirectory produces a directory entry stamped with the build-time clock,
so its timestamp differs from the fixed literal one, and two builds of the
same unchanged project at different times produce different entry lists. -/
theorem createZip_timestamp_counterexample :
    ∃ es es' : List ZipEntry,
      createZip 0 (FsNode.dir [("sub", FsNode.dir [("a.txt", FsNode.file "y")])])
          ["sub"] = .ok es ∧
      createZip 1 (FsNode.dir [("sub", FsNode.dir [("a.txt", FsNode.file "y")])])
          ["sub"] = .ok es' ∧
      es ≠ es' ∧
      ∃ e ∈ es, e.date ≠ fixedTimestamp := by
  refine ⟨[ZipEntry.mk "sub/" true "" 0,
      ZipEntry.mk "sub/a.txt" false "y" fixedTimestamp],
    [ZipEntry.mk "sub/" true "" 1,
      ZipEntry.mk "sub/a.txt" false "y" fixedTimestamp], ?_, ?_, ?_, ?_⟩
  · simp [createZip, addToZip, addZipEntries, lookupPath, List.lookup,
      show splitSlash "sub" = ["sub"] from by decide]
  · simp [createZip, addToZip, addZipEntries, lookupPath, List.lookup,
      show splitSlash "sub" = ["sub"] from by decide]
  · simp
  · exact ⟨ZipEntry.mk "sub/" true "" 0, by simp, by simp [fixedTimestamp]⟩

/-- C10: on every successful run of validation, linking and
precompilation, the final file set handed to the archive builder contains
`package.json`, `index.js` and the generated `.meta`, with `.meta` as its
first element, and each stage only ever adds to the file set: everything
in the validated set survives linking, and everything in the linked set
survives precompilation. -/
theorem pipeline_file_set_monotone
    (listing : List String) (ins : String × List String)
    (ll : List String) (rl : String → Option Json) (al : List String)
    (rf : String → String) (imp : String → Bool) (gp : String → Json → Config)
    (m1 m2 : Manifest) (final : List String × LocaleMeta)
    (h1 : filterFiles listing ins = .ok m1)
    (h2 : linkFiles m1 ll rl al rf imp = .ok m2)
    (h3 : precompile m2 rl gp = .ok final) :
    "package.json" ∈ final.1 ∧ "index.js" ∈ final.1 ∧ ".meta" ∈ final.1 ∧
      final.1.head? = some ".meta" ∧
      (∀ f ∈ m1.files, f ∈ m2.files) ∧ (∀ f ∈ m2.files, f ∈ final.1) := by
  have hfin : final.1 = ".meta" :: m2.files := by
    rw [precompile] at h3
    rcases hp : localesToPairs
        (m2.files.filter (fun f => matchPrecompileLocale f.data)) rl with e | pairs
    · simp only [hp] at h3
      exact Except.noConfusion h3
    · simp only [hp] at h3
      injection h3 with h'
      rw [← h']
  have hm2 : ∀ f ∈ m1.files, f ∈ m2.files := by
    rcases ha : linkAutoComplete al rf imp with e | autoFiles
    · rw [linkFiles, ha] at h2
      exact Except.noConfusion h2
    · rw [linkFiles, ha] at h2
      injection h2 with h'
      intro f hf
      rw [← h']
      simp only [sortSubtract_eq_id]
      exact mem_unionR.mpr (Or.inl hf)
  have hm1 : "package.json" ∈ m1.files ∧ "index.js" ∈ m1.files := by
    simp only [filterFiles] at h1
    split at h1
    · exact Except.noConfusion h1
    · injection h1 with h'
      rw [← h']
      constructor
      · exact mem_unionR.mpr (Or.inr (List.mem_append.mpr (Or.inr (by
          simp [requiredFiles]))))
      · exact mem_unionR.mpr (Or.inr (List.mem_append.mpr (Or.inr (by
          simp [requiredFiles]))))
  refine ⟨?_, ?_, ?_, ?_, hm2, ?_⟩
  · rw [hfin]
    exact List.mem_cons_of_mem _ (hm2 _ hm1.1)
  · rw [hfin]
    exact List.mem_cons_of_mem _ (hm2 _ hm1.2)
  · rw [hfin]
    exact List.mem_cons_self _ _
  · rw [hfin]
    rfl
  · intro f hf
    rw [hfin]
    exact List.mem_cons_of_mem _ hf

/-- Witness for `pipeline_file_set_monotone`: a complete concrete pipeline
run on a minimal project with no modules, locales or autocomplete
scripts. -/
theorem pipeline_file_set_monotone_witness :
    "package.json" ∈ [".meta", "package.json", "index.js"] ∧
      "index.js" ∈ [".meta", "package.json", "index.js"] ∧
      ".meta" ∈ [".meta", "package.json", "index.js"] ∧
      ([".meta", "package.json", "index.js"] : List String).head? =
        some ".meta" ∧
      (∀ f ∈ (["package.json", "index.js"] : List String),
        f ∈ (["package.json", "index.js"] : List String)) ∧
      (∀ f ∈ (["package.json", "index.js"] : List String),
        f ∈ [".meta", "package.json", "index.js"]) := by
  have h := pipeline_file_set_monotone ["package.json", "index.js"] ("c", [])
    [] (fun _ => none) [] (fun _ => "") (fun _ => false)
    (fun _ _ => (⟨"t", "d", "p", []⟩ : Config))
    ⟨"c", ["package.json", "index.js"]⟩ ⟨"c", ["package.json", "index.js"]⟩
    ([".meta", "package.json", "index.js"],
      project "default" (⟨"t", "d", "p", []⟩ : Config))
    rfl rfl rfl
  exact h

end Rung
